import Mathlib

/-!
# Verification of the `kodegen-utils` fuzzy-search core

This file gives a shallow embedding, in Lean 4, of the algorithmic core of the
`kodegen-utils` repository (`src/fuzzy_search.rs` and the helper
`find_common_boundaries` of `src/char_analysis.rs`), and proves or refutes the
frozen specification claims about it.

Modelling conventions:

* A Rust `&str` is modelled as a `List Char`; Lean's `Char` is exactly a
  Unicode scalar value, matching Rust's `char`.
* Rust's `str::len` is the UTF-8 byte length, modelled by `byteLen` using
  `Char.utf8Size` (identical to Rust's `char::len_utf8`).
* Rust byte-slicing `&text[i..j]` panics when `i` or `j` is not a character
  boundary.  Fallible operations are modelled in `Option`: `none` is a panic.
* The `f64` distances of the Rust code are always either `f64::INFINITY` or
  exact small integers (every value stored is a Levenshtein distance, an
  integer below 2^52, on which `f64` arithmetic and comparisons are exact, and
  `(x - y).abs() < f64::EPSILON` on such integers holds iff `x = y`).  They
  are therefore modelled by `ℕ∞` (`WithTop ℕ`).
* The similarity ratio performs one true division; it is modelled in `ℚ`,
  the exact value of the expression the code computes.
-/

/-- UTF-8 byte length of one scalar value, as Rust's `char::len_utf8`.
Lean's `Char.utf8Size` implements exactly the same case split. -/
def charBytes (c : Char) : Nat := c.utf8Size

/-- `str::len`: the UTF-8 byte length of a string. -/
def byteLen (s : List Char) : Nat := (s.map charBytes).sum

/-- Drop the first `n` bytes of a UTF-8 string, returning the remaining
scalar values.  `none` when byte position `n` falls strictly inside the
encoding of a scalar value (or past the end): the positions where Rust
byte-slicing panics. -/
def dropBytes : List Char → Nat → Option (List Char)
  | s, 0 => some s
  | [], _ + 1 => none
  | c :: s, n + 1 =>
      if charBytes c ≤ n + 1 then dropBytes s (n + 1 - charBytes c) else none

/-- Take the first `n` bytes of a UTF-8 string as scalar values; `none` when
byte position `n` splits a scalar value or exceeds the string. -/
def takeBytes : List Char → Nat → Option (List Char)
  | _, 0 => some []
  | [], _ + 1 => none
  | c :: s, n + 1 =>
      if charBytes c ≤ n + 1 then (takeBytes s (n + 1 - charBytes c)).map (c :: ·)
      else none

/-- Rust `&text[i..j]` (for `i ≤ j ≤ text.len()`): the scalar values between
byte positions `i` and `j`; `none` iff a boundary splits a scalar value,
which is where Rust panics. -/
def byteSlice (s : List Char) (i j : Nat) : Option (List Char) :=
  (dropBytes s i).bind (fun t => takeBytes t (j - i))

/-- `safe_substring` (fuzzy_search.rs lines 36–46): swaps `start > end`,
clamps both to `text.len()`, returns `""` for `start >= end`, and otherwise
byte-slices — which, contrary to the "safe" name, panics (`none`) when a
clamped index falls inside a multi-byte scalar value. -/
def safe_substring (text : List Char) (start stop : Nat) : Option (List Char) :=
  let len := byteLen text
  let (start, stop) := if start > stop then (stop, start) else (start, stop)
  let start := min start len
  let stop := min stop len
  if start ≥ stop then some [] else byteSlice text start stop

/-- The cell update of the Rust DP (fuzzy_search.rs lines 96–107): walking one
matrix row left to right.  Arguments: the character `x = a_chars[i-1]` of the
current row, the remaining suffix of `b_chars`, the suffix of the previous row
starting at column `j-1` (so its first two entries are the diagonal and upper
neighbours of the next cell), and the cell to the left.  Produces the row's
cells for the remaining columns. -/
def fillCells (x : Char) : List Char → List Nat → Nat → List Nat
  | y :: ys, d :: u :: prev, left =>
      let cost : Nat := if x = y then 0 else 1
      let cell := min (u + 1) (min (left + 1) (d + cost))
      cell :: fillCells x ys (u :: prev) cell
  | _, _, _ => []

/-- One full row `i ≥ 1` of the Rust DP matrix: first cell `i`
(the initialised first column), then the filled cells. -/
def buildRow (x : Char) (b : List Char) (prev : List Nat) (i : Nat) : List Nat :=
  i :: fillCells x b prev i

/-- Iterate the row construction over the characters of `a`, starting from
row `i` being `prev`; returns the final row of the matrix. -/
def lastRow : List Char → List Char → List Nat → Nat → List Nat
  | [], _, prev, _ => prev
  | x :: xs, b, prev, i => lastRow xs b (buildRow x b prev (i + 1)) (i + 1)

/-- `levenshtein_distance` (fuzzy_search.rs lines 67–110): the early returns
for empty operands, then the `(n+1)×(m+1)` dynamic-programming matrix with
first row `0..m`, first column `0..n`, and cell formula
`min (up+1) (min (left+1) (diag+cost))`; the result is the last cell of the
last row.  The `f64` matrix holds exact small integers, modelled as `Nat`. -/
def levenshtein_distance (a b : List Char) : Nat :=
  if a.length = 0 then b.length
  else if b.length = 0 then a.length
  else ((lastRow a b (List.range (b.length + 1)) 0).getLast?).getD 0

/-- `FuzzySearchResult` (fuzzy_search.rs lines 14–26).  The `f64` distance is
either `INFINITY` or an exact integer, modelled as `ℕ∞`. -/
structure FuzzySearchResult where
  start : Nat
  stop : Nat
  value : List Char
  distance : ℕ∞
  deriving DecidableEq

instance : WellFoundedRelation ℕ∞ := ⟨(· < ·), wellFounded_lt⟩

/-- The "improve start position" loop of `iterative_reduction`
(fuzzy_search.rs lines 124–134): while shrinking the window from the left
strictly improves the distance, accept the shrink.  State: `bestStart`,
`bestDistance`; `bestEnd` is fixed.  `none` models a byte-slicing panic. -/
def improveStart (text query : List Char) (bestEnd bestStart : Nat)
    (bestDistance : ℕ∞) : Option (Nat × ℕ∞) :=
  match safe_substring text (bestStart + 1) bestEnd with
  | none => none
  | some nextText =>
      let next : ℕ∞ := (levenshtein_distance nextText query : ℕ∞)
      if h : next < bestDistance then
        improveStart text query bestEnd (bestStart + 1) next
      else
        some (bestStart, bestDistance)
termination_by bestDistance
decreasing_by exact h

/-- The "improve end position" loop of `iterative_reduction`
(fuzzy_search.rs lines 136–146): while shrinking the window from the right
(with saturating subtraction) strictly improves the distance, accept. -/
def improveEnd (text query : List Char) (bestStart bestEnd : Nat)
    (bestDistance : ℕ∞) : Option (Nat × ℕ∞) :=
  match safe_substring text bestStart (bestEnd - 1) with
  | none => none
  | some nextText =>
      let next : ℕ∞ := (levenshtein_distance nextText query : ℕ∞)
      if h : next < bestDistance then
        improveEnd text query bestStart (bestEnd - 1) next
      else
        some (bestEnd, bestDistance)
termination_by bestDistance
decreasing_by exact h

/-- `iterative_reduction` (fuzzy_search.rs lines 113–154): run the two
hill-climbing loops, then assemble the result from the final window
(`none` anywhere is a byte-slicing panic propagating out). -/
def iterative_reduction (text query : List Char) (start stop : Nat)
    (parent_distance : ℕ∞) : Option FuzzySearchResult :=
  (improveStart text query stop start parent_distance).bind fun p =>
    (improveEnd text query p.1 stop p.2).bind fun q =>
      (safe_substring text p.1 q.1).map fun v => ⟨p.1, q.1, v, q.2⟩

/-- Outcome of one unfolding of `recursive_fuzzy_index_of`: either hand the
given range and bound to `iterative_reduction`, or make a recursive call with
the given arguments. -/
inductive RecOutcome where
  | refine (start stop : Nat) (pd : ℕ∞)
  | recurse (start stop : Nat) (pd : ℕ∞)
  deriving DecidableEq

/-- The body of `recursive_fuzzy_index_of` (fuzzy_search.rs lines 185–215)
up to (but not including) the actual recursive call / hand-off: decides
whether the call refines the current range iteratively or recurses, and with
which arguments.  `none` models a byte-slicing panic while computing the two
candidate-window distances.  The `f64::EPSILON` comparison of line 206 is
exact equality on the integral (or infinite) distances involved. -/
def recStep (text query : List Char) (start stop : Nat) (pd : ℕ∞) :
    Option RecOutcome :=
  if stop - start ≤ 2 * byteLen query then some (.refine start stop pd)
  else
    let mid_point := start + (stop - start) / 2
    let left_end := min stop (mid_point + byteLen query)
    let right_start := max start (mid_point - byteLen query)
    match safe_substring text start left_end, safe_substring text right_start stop with
    | some left_text, some right_text =>
        let left_distance : ℕ∞ := (levenshtein_distance left_text query : ℕ∞)
        let right_distance : ℕ∞ := (levenshtein_distance right_text query : ℕ∞)
        let best_distance := min left_distance (min pd right_distance)
        if pd = best_distance then some (.refine start stop pd)
        else if left_distance < right_distance then
          some (.recurse start left_end best_distance)
        else
          some (.recurse right_start stop best_distance)
    | _, _ => none

/-- `recursive_fuzzy_index_of` (fuzzy_search.rs lines 178–216), with the
`end` argument already resolved (`end.unwrap_or(text.len())` is applied in
`recursive_fuzzy_index_of_with_defaults` below). -/
def recursive_fuzzy_index_of (text query : List Char) (start stop : Nat)
    (pd : ℕ∞) : Option FuzzySearchResult :=
  match h : recStep text query start stop pd with
  | none => none
  | some (.refine s e d) => iterative_reduction text query s e d
  | some (.recurse s e d) => recursive_fuzzy_index_of text query s e d
termination_by pd
decreasing_by
  unfold recStep at h
  split at h
  · simp at h
  · dsimp only at h
    split at h
    · split at h
      · simp at h
      · rename_i hne
        split at h <;>
          · simp only [Option.some.injEq, RecOutcome.recurse.injEq] at h
            obtain ⟨-, -, rfl⟩ := h
            exact lt_of_le_of_ne
              (le_trans (min_le_right _ _) (min_le_left _ _))
              (fun hcon => hne hcon.symm)
    · simp at h

/-- `recursive_fuzzy_index_of_with_defaults` (fuzzy_search.rs lines 230–233):
`start = 0`, `end = text.len()`, `parent_distance = f64::INFINITY`. -/
def recursive_fuzzy_index_of_with_defaults (text query : List Char) :
    Option FuzzySearchResult :=
  recursive_fuzzy_index_of text query 0 (byteLen text) ⊤

/-- `get_similarity_ratio` (fuzzy_search.rs lines 248–259).  `cmp::max(a.len(),
b.len())` is the maximum of the **byte** lengths; the division is the one
genuinely non-integral `f64` operation of the core, modelled exactly in `ℚ`. -/
def get_similarity_ratio (a b : List Char) : ℚ :=
  let max_length := max (byteLen a) (byteLen b)
  if max_length = 0 then 1
  else 1 - (levenshtein_distance a b : ℚ) / (max_length : ℚ)

/-- `find_common_boundaries` (char_analysis.rs lines 236–258): longest common
prefix length of the scalar sequences, then the longest common suffix of the
reversed sequences truncated to `min len − prefix` so prefix and suffix never
overlap. -/
def find_common_boundaries (a b : List Char) : Nat × Nat :=
  let prefix_len := ((a.zip b).takeWhile (fun p => p.1 = p.2)).length
  let max_suffix := min a.length b.length - prefix_len
  let suffix_len :=
    (((a.reverse.zip b.reverse).take max_suffix).takeWhile (fun p => p.1 = p.2)).length
  (prefix_len, suffix_len)

/-! ## Fuel-based evaluator

The well-founded definitions above do not reduce inside `decide`; the
following fuel-indexed reimplementation does, and is proved sound against
them, so concrete executions can be established by `decide`. -/

/-- Result of a fuel-bounded computation: either the value (itself an
`Option`, `none` being a panic) or fuel exhaustion. -/
inductive FuelResult (α : Type) where
  | out (r : α)
  | fuelOut
  deriving DecidableEq

/-- Fuel-bounded `improveStart`. -/
def improveStartF (text query : List Char) (bestEnd : Nat) :
    Nat → Nat → ℕ∞ → FuelResult (Option (Nat × ℕ∞))
  | 0, _, _ => .fuelOut
  | fuel + 1, bestStart, bestDistance =>
      match safe_substring text (bestStart + 1) bestEnd with
      | none => .out none
      | some nextText =>
          let next : ℕ∞ := (levenshtein_distance nextText query : ℕ∞)
          if next < bestDistance then
            improveStartF text query bestEnd fuel (bestStart + 1) next
          else
            .out (some (bestStart, bestDistance))

/-- Fuel-bounded `improveEnd`. -/
def improveEndF (text query : List Char) (bestStart : Nat) :
    Nat → Nat → ℕ∞ → FuelResult (Option (Nat × ℕ∞))
  | 0, _, _ => .fuelOut
  | fuel + 1, bestEnd, bestDistance =>
      match safe_substring text bestStart (bestEnd - 1) with
      | none => .out none
      | some nextText =>
          let next : ℕ∞ := (levenshtein_distance nextText query : ℕ∞)
          if next < bestDistance then
            improveEndF text query bestStart fuel (bestEnd - 1) next
          else
            .out (some (bestEnd, bestDistance))

/-- Fuel-bounded `iterative_reduction`. -/
def iterative_reductionF (fuel : Nat) (text query : List Char)
    (start stop : Nat) (pd : ℕ∞) : FuelResult (Option FuzzySearchResult) :=
  match improveStartF text query stop fuel start pd with
  | .fuelOut => .fuelOut
  | .out none => .out none
  | .out (some (bs, d₁)) =>
      match improveEndF text query bs fuel stop d₁ with
      | .fuelOut => .fuelOut
      | .out none => .out none
      | .out (some (be, d₂)) =>
          match safe_substring text bs be with
          | none => .out none
          | some v => .out (some ⟨bs, be, v, d₂⟩)

/-- Fuel-bounded `recursive_fuzzy_index_of`. -/
def recursive_fuzzy_index_ofF (text query : List Char) :
    Nat → Nat → Nat → ℕ∞ → FuelResult (Option FuzzySearchResult)
  | 0, _, _, _ => .fuelOut
  | fuel + 1, start, stop, pd =>
      match recStep text query start stop pd with
      | none => .out none
      | some (.refine s e d) => iterative_reductionF fuel text query s e d
      | some (.recurse s e d) => recursive_fuzzy_index_ofF text query fuel s e d

/-- Fuel-bounded `recursive_fuzzy_index_of_with_defaults`. -/
def locateF (fuel : Nat) (text query : List Char) :
    FuelResult (Option FuzzySearchResult) :=
  recursive_fuzzy_index_ofF text query fuel 0 (byteLen text) ⊤


/-- The textbook Levenshtein edit distance over scalar-value sequences, with
cost 1 for insertion, deletion and substitution and 0 for a match: Mathlib's
`levenshtein` with the unit cost structure.  This is the reference definition
the spec describes ("classic dynamic-programming edit distance"); the claim
theorems compare the Rust implementation `levenshtein_distance` against it. -/
def classicLev (a b : List Char) : ℕ :=
  levenshtein Levenshtein.defaultCost a b

/-- Proof-side description of one row of the Rust DP matrix: the distances
from the prefix `pa` of `a` to the prefixes `bdone`, `bdone ++ [y₁]`, …,
`bdone ++ brest` of `b`, expressed with the reference distance. -/
def dpRow (pa : List Char) : List Char → List Char → List ℕ
  | bdone, [] => [classicLev pa bdone]
  | bdone, y :: ys => classicLev pa bdone :: dpRow pa (bdone ++ [y]) ys

/-! ## Soundness of the fuel evaluator -/

theorem improveStartF_sound {text query : List Char} {bestEnd : Nat} :
    ∀ {fuel bestStart : Nat} {bestDistance : ℕ∞} {x},
      improveStartF text query bestEnd fuel bestStart bestDistance = .out x →
      improveStart text query bestEnd bestStart bestDistance = x := by
  intro fuel
  induction fuel with
  | zero => intro _ _ _ h; exact absurd h (by simp [improveStartF])
  | succ n ih =>
      intro bestStart bestDistance x h
      rw [improveStart]
      unfold improveStartF at h
      split at h
      · rename_i heq
        exact FuelResult.out.inj h
      · rename_i nextText heq
        dsimp only at h ⊢
        split at h
        · rename_i hlt
          rw [dif_pos hlt]
          exact ih h
        · rename_i hlt
          rw [dif_neg hlt]
          exact FuelResult.out.inj h

theorem improveEndF_sound {text query : List Char} {bestStart : Nat} :
    ∀ {fuel bestEnd : Nat} {bestDistance : ℕ∞} {x},
      improveEndF text query bestStart fuel bestEnd bestDistance = .out x →
      improveEnd text query bestStart bestEnd bestDistance = x := by
  intro fuel
  induction fuel with
  | zero => intro _ _ _ h; exact absurd h (by simp [improveEndF])
  | succ n ih =>
      intro bestEnd bestDistance x h
      rw [improveEnd]
      unfold improveEndF at h
      split at h
      · rename_i heq
        exact FuelResult.out.inj h
      · rename_i nextText heq
        dsimp only at h ⊢
        split at h
        · rename_i hlt
          rw [dif_pos hlt]
          exact ih h
        · rename_i hlt
          rw [dif_neg hlt]
          exact FuelResult.out.inj h

theorem iterative_reductionF_sound {fuel : Nat} {text query : List Char}
    {start stop : Nat} {pd : ℕ∞} {x}
    (h : iterative_reductionF fuel text query start stop pd = .out x) :
    iterative_reduction text query start stop pd = x := by
  unfold iterative_reductionF at h
  unfold iterative_reduction
  split at h
  · exact absurd h (by simp)
  · rename_i heq
    rw [improveStartF_sound heq, Option.none_bind]
    exact FuelResult.out.inj h
  · rename_i p bs d₁ heq
    rw [improveStartF_sound heq, Option.some_bind]
    split at h
    · exact absurd h (by simp)
    · rename_i heq₂
      rw [improveEndF_sound heq₂, Option.none_bind]
      exact FuelResult.out.inj h
    · rename_i q be d₂ heq₂
      rw [improveEndF_sound heq₂, Option.some_bind]
      split at h
      · rename_i heq₃
        rw [heq₃, Option.map_none']
        exact FuelResult.out.inj h
      · rename_i v heq₃
        rw [heq₃, Option.map_some']
        exact FuelResult.out.inj h

theorem recursive_fuzzy_index_ofF_sound {text query : List Char} :
    ∀ {fuel start stop : Nat} {pd : ℕ∞} {x},
      recursive_fuzzy_index_ofF text query fuel start stop pd = .out x →
      recursive_fuzzy_index_of text query start stop pd = x := by
  intro fuel
  induction fuel with
  | zero => intro _ _ _ _ h; exact absurd h (by simp [recursive_fuzzy_index_ofF])
  | succ n ih =>
      intro start stop pd x h
      rw [recursive_fuzzy_index_of]
      unfold recursive_fuzzy_index_ofF at h
      split at h
      · rename_i heq
        split
        · exact FuelResult.out.inj h
        · rename_i heq'; rw [heq] at heq'; exact absurd heq' (by simp)
        · rename_i heq'; rw [heq] at heq'; exact absurd heq' (by simp)
      · rename_i s e d heq
        split
        · rename_i heq'; rw [heq] at heq'; exact absurd heq' (by simp)
        · rename_i s' e' d' heq'
          rw [heq] at heq'
          obtain ⟨rfl, rfl, rfl⟩ :=
            RecOutcome.refine.inj (Option.some.inj heq'.symm)
          exact iterative_reductionF_sound h
        · rename_i heq'; rw [heq] at heq'; exact absurd heq' (by simp)
      · rename_i s e d heq
        split
        · rename_i heq'; rw [heq] at heq'; exact absurd heq' (by simp)
        · rename_i heq'; rw [heq] at heq'; exact absurd heq' (by simp)
        · rename_i s' e' d' heq'
          rw [heq] at heq'
          obtain ⟨rfl, rfl, rfl⟩ :=
            RecOutcome.recurse.inj (Option.some.inj heq'.symm)
          exact ih h

theorem locateF_sound (fuel : Nat) {text query : List Char} {x}
    (h : locateF fuel text query = .out x) :
    recursive_fuzzy_index_of_with_defaults text query = x :=
  recursive_fuzzy_index_ofF_sound h

/-! ## The DP matrix computes the classic Levenshtein distance -/

theorem classicLev_nil_left (b : List Char) : classicLev [] b = b.length := by
  induction b with
  | nil => simp [classicLev]
  | cons y ys ih =>
      simp only [classicLev, levenshtein_nil_cons, Levenshtein.defaultCost_insert,
        List.length_cons] at *
      omega

theorem classicLev_nil_right (a : List Char) : classicLev a [] = a.length := by
  induction a with
  | nil => simp [classicLev]
  | cons x xs ih =>
      simp only [classicLev, levenshtein_cons_nil, Levenshtein.defaultCost_delete,
        List.length_cons] at *
      omega

theorem classicLev_cons_cons (x y : Char) (xs ys : List Char) :
    classicLev (x :: xs) (y :: ys) =
      min (1 + classicLev xs (y :: ys))
        (min (1 + classicLev (x :: xs) ys)
          ((if x = y then 0 else 1) + classicLev xs ys)) := by
  simp [classicLev, levenshtein_cons_cons]

set_option maxHeartbeats 1000000 in
theorem classicLev_snoc_snoc (x y : Char) (a : List Char) :
    ∀ b : List Char,
      classicLev (a ++ [x]) (b ++ [y]) =
        min (classicLev a (b ++ [y]) + 1)
          (min (classicLev (a ++ [x]) b + 1)
            (classicLev a b + (if x = y then 0 else 1))) := by
  induction a with
  | nil =>
      intro b
      induction b with
      | nil =>
          simp only [List.nil_append, classicLev_cons_cons, classicLev_nil_left,
            classicLev_nil_right, List.length_cons, List.length_nil]
          refine le_antisymm ?_ ?_ <;>
            simp only [← min_add_add_left, ← min_add_add_right, le_min_iff, min_le_iff] <;>
            omega
      | cons y' B ihb =>
          simp only [List.nil_append, List.cons_append, classicLev_cons_cons,
            classicLev_nil_left, classicLev_nil_right, List.length_cons,
            List.length_append, List.length_nil] at ihb ⊢
          rw [ihb]
          refine le_antisymm ?_ ?_ <;>
            simp only [← min_add_add_left, ← min_add_add_right, le_min_iff, min_le_iff] <;>
            omega
  | cons x' A iha =>
      intro b
      induction b with
      | nil =>
          have h1 := iha []
          simp only [List.nil_append, List.cons_append, classicLev_cons_cons,
            classicLev_nil_left, classicLev_nil_right, List.length_cons,
            List.length_append, List.length_nil] at h1 ⊢
          rw [h1]
          refine le_antisymm ?_ ?_ <;>
            simp only [← min_add_add_left, ← min_add_add_right, le_min_iff, min_le_iff] <;>
            omega
      | cons y' B ihb =>
          have h1 := iha (y' :: B)
          have h2 := iha B
          simp only [List.cons_append, classicLev_cons_cons] at h1 h2 ihb ⊢
          rw [h1, ihb, h2]
          refine le_antisymm ?_ ?_ <;>
            simp only [← min_add_add_left, ← min_add_add_right, le_min_iff, min_le_iff] <;>
            omega

theorem dpRow_expose (pa bdone brest : List Char) :
    dpRow pa bdone brest = classicLev pa bdone :: (dpRow pa bdone brest).tail := by
  cases brest <;> rfl

theorem dpRow_ne_nil (pa bdone brest : List Char) : dpRow pa bdone brest ≠ [] := by
  cases brest <;> simp [dpRow]

theorem fillCells_dpRow (x : Char) (pa : List Char) :
    ∀ (brest bdone : List Char),
      fillCells x brest (dpRow pa bdone brest) (classicLev (pa ++ [x]) bdone) =
        (dpRow (pa ++ [x]) bdone brest).tail := by
  intro brest
  induction brest with
  | nil => intro bdone; simp [dpRow, fillCells]
  | cons y ys ih =>
      intro bdone
      cases ys with
      | nil =>
          dsimp only [dpRow, fillCells, List.tail_cons]
          rw [← classicLev_snoc_snoc]
      | cons y₂ ys₂ =>
          have ih' := ih (bdone ++ [y])
          dsimp only [dpRow, fillCells, List.tail_cons] at ih' ⊢
          rw [← classicLev_snoc_snoc, ih']

theorem lastRow_dpRow (b : List Char) :
    ∀ (xs pa : List Char),
      lastRow xs b (dpRow pa [] b) pa.length = dpRow (pa ++ xs) [] b := by
  intro xs
  induction xs with
  | nil => intro pa; simp [lastRow]
  | cons x xs' ih =>
      intro pa
      have hb : buildRow x b (dpRow pa [] b) (pa.length + 1) = dpRow (pa ++ [x]) [] b := by
        rw [dpRow_expose (pa ++ [x]) [] b]
        unfold buildRow
        rw [← fillCells_dpRow x pa b []]
        rw [classicLev_nil_right]
        simp
      rw [lastRow, hb]
      have := ih (pa ++ [x])
      simp only [List.length_append, List.length_cons, List.length_nil,
        List.append_assoc, List.singleton_append] at this ⊢
      exact this

theorem dpRow_range (brest : List Char) :
    ∀ bdone : List Char,
      dpRow [] bdone brest = (List.range (brest.length + 1)).map (fun k => bdone.length + k) := by
  induction brest with
  | nil =>
      intro bdone
      simp [dpRow, classicLev_nil_left, List.range_succ]
  | cons y ys ih =>
      intro bdone
      rw [dpRow, ih (bdone ++ [y]), classicLev_nil_left]
      simp only [List.length_cons, List.length_append, List.length_nil]
      rw [show List.range (ys.length + 1 + 1) = 0 :: List.map Nat.succ (List.range (ys.length + 1))
        from List.range_succ_eq_map _]
      simp only [List.map_cons, List.map_map]
      refine congrArg₂ List.cons (by omega) ?_
      refine List.map_congr_left fun a _ => ?_
      simp only [Function.comp_apply]
      omega

theorem dpRow_getLast_getD (pa : List Char) :
    ∀ (brest bdone : List Char),
      ((dpRow pa bdone brest).getLast?).getD 0 = classicLev pa (bdone ++ brest) := by
  intro brest
  induction brest with
  | nil => intro bdone; simp [dpRow]
  | cons y ys ih =>
      intro bdone
      rw [dpRow, dpRow_expose pa (bdone ++ [y]) ys, List.getLast?_cons_cons,
        ← dpRow_expose pa (bdone ++ [y]) ys, ih (bdone ++ [y])]
      congr 1
      simp

theorem lev_eq_classicLev (a b : List Char) :
    levenshtein_distance a b = classicLev a b := by
  unfold levenshtein_distance
  split
  · rename_i ha
    obtain rfl := List.length_eq_zero.mp ha
    exact (classicLev_nil_left b).symm
  · split
    · rename_i hb
      obtain rfl := List.length_eq_zero.mp hb
      exact (classicLev_nil_right a).symm
    · have hr : List.range (b.length + 1) = dpRow [] [] b := by
        rw [dpRow_range b []]
        simp
      rw [hr]
      have hl := lastRow_dpRow b a []
      simp only [List.length_nil, List.nil_append] at hl
      rw [hl, dpRow_getLast_getD a b []]
      simp

theorem classicLev_self (a : List Char) : classicLev a a = 0 := by
  induction a with
  | nil => simp [classicLev]
  | cons x xs ih =>
      rw [classicLev_cons_cons]
      simp [ih]

theorem classicLev_eq_zero_iff (a : List Char) :
    ∀ b : List Char, classicLev a b = 0 ↔ a = b := by
  induction a with
  | nil =>
      intro b
      rw [classicLev_nil_left]
      cases b <;> simp
  | cons x xs ih =>
      intro b
      cases b with
      | nil => rw [classicLev_nil_right]; simp
      | cons y ys =>
          rw [classicLev_cons_cons]
          constructor
          · intro h
            by_cases hxy : x = y
            · subst hxy
              simp only [if_pos rfl] at h
              have : classicLev xs ys = 0 := by omega
              simp [(ih ys).mp this]
            · simp only [if_neg hxy] at h
              omega
          · intro h
            obtain ⟨rfl, rfl⟩ := List.cons.inj h
            simp [classicLev_self, (ih xs).mpr rfl]

theorem classicLev_le_max (a : List Char) :
    ∀ b : List Char, classicLev a b ≤ max a.length b.length := by
  induction a with
  | nil => intro b; rw [classicLev_nil_left]; simp
  | cons x xs ih =>
      intro b
      cases b with
      | nil => rw [classicLev_nil_right]; simp
      | cons y ys =>
          rw [classicLev_cons_cons]
          have h := ih ys
          have hmin : min (1 + classicLev xs (y :: ys))
              (min (1 + classicLev (x :: xs) ys)
                ((if x = y then 0 else 1) + classicLev xs ys)) ≤
              (if x = y then 0 else 1) + classicLev xs ys :=
            le_trans (min_le_right _ _) (min_le_right _ _)
          refine le_trans hmin ?_
          simp only [List.length_cons]
          split <;> omega

theorem length_le_byteLen (s : List Char) : s.length ≤ byteLen s := by
  induction s with
  | nil => simp [byteLen]
  | cons c cs ih =>
      have hc : 1 ≤ charBytes c := Char.utf8Size_pos c
      simp only [byteLen, List.map_cons, List.sum_cons, List.length_cons] at *
      omega

theorem byteLen_eq_zero_iff (s : List Char) : byteLen s = 0 ↔ s = [] := by
  cases s with
  | nil => simp [byteLen]
  | cons c cs =>
      have hc : 1 ≤ charBytes c := Char.utf8Size_pos c
      simp only [byteLen, List.map_cons, List.sum_cons]
      constructor
      · intro h; omega
      · intro h; exact absurd h (by simp)

/-! ## Claim theorems: distance engine, boundaries, similarity -/

/-- C6: `levenshtein_distance` equals the classic Levenshtein edit distance
over the sequences of Unicode scalar values (unit costs for insertion,
deletion and substitution, zero for a match — `classicLev`, Mathlib's
reference `levenshtein`), and in particular the degenerate cases give the
scalar length of the other operand. -/
theorem levenshtein_distance_is_classic (a b : List Char) :
    levenshtein_distance a b = classicLev a b ∧
    levenshtein_distance [] b = b.length ∧
    levenshtein_distance a [] = a.length :=
  ⟨lev_eq_classicLev a b,
   by rw [lev_eq_classicLev]; exact classicLev_nil_left b,
   by rw [lev_eq_classicLev]; exact classicLev_nil_right a⟩

/-- C7: `find_common_boundaries a a = (scalar length of a, 0)`: the prefix
absorbs the entire string and the suffix is empty, never double-counting. -/
theorem find_common_boundaries_self (a : List Char) :
    find_common_boundaries a a = (a.length, 0) := by
  have hpre : ∀ l : List Char, ((l.zip l).takeWhile fun p => p.1 = p.2) = l.zip l := by
    intro l
    induction l with
    | nil => rfl
    | cons x xs ih => simpa [List.zip_cons_cons, List.takeWhile_cons] using ih
  unfold find_common_boundaries
  simp [hpre a, List.length_zip]

/-- C5 counterexample: the claim computes `max_len` in scalar units, but the
code uses `str::len`, the UTF-8 byte length.  For `a = "éé"` (2 scalars,
4 bytes) and `b = ""` the claim demands `1 - 2/2 = 0`, the code returns
`1 - 2/4 = 1/2`. -/
theorem get_similarity_ratio_not_scalar_len :
    get_similarity_ratio "éé".toList "".toList ≠
      1 - (levenshtein_distance "éé".toList "".toList : ℚ) /
        (max ("éé".toList.length) ("".toList.length) : ℚ) := by
  have h1 : byteLen "éé".toList = 4 := by decide
  have h2 : byteLen "".toList = 0 := by decide
  have h3 : levenshtein_distance "éé".toList "".toList = 2 := by decide
  have h4 : ("éé".toList.length) = 2 := by decide
  have h5 : ("".toList.length) = 0 := by decide
  unfold get_similarity_ratio
  rw [h1, h2, h3, h4, h5]
  norm_num

/-- C5 (amended): `get_similarity_ratio` returns `1` when both operands have
UTF-8 byte length 0, and otherwise `1 - distance/max_len` where `distance` is
the classic Levenshtein distance over scalar values and `max_len` the maximum
of the two **byte** lengths (which coincides with the scalar length exactly
for ASCII operands). -/
theorem get_similarity_ratio_spec (a b : List Char) :
    get_similarity_ratio a b =
      if max (byteLen a) (byteLen b) = 0 then 1
      else 1 - (classicLev a b : ℚ) / ((max (byteLen a) (byteLen b) : ℕ) : ℚ) := by
  unfold get_similarity_ratio
  dsimp only
  rw [lev_eq_classicLev]

/-- C9: the similarity ratio always lies in `[0, 1]`, and equals `1` exactly
when the operands are identical or both empty. -/
theorem get_similarity_ratio_range (a b : List Char) :
    0 ≤ get_similarity_ratio a b ∧ get_similarity_ratio a b ≤ 1 ∧
    (get_similarity_ratio a b = 1 ↔ (a = b ∨ (a = [] ∧ b = []))) := by
  unfold get_similarity_ratio
  dsimp only
  rw [lev_eq_classicLev]
  set M := max (byteLen a) (byteLen b) with hM
  by_cases h : M = 0
  · rw [if_pos h]
    refine ⟨by norm_num, le_refl 1, ?_⟩
    have hab : a = [] ∧ b = [] := by
      rw [hM, Nat.max_eq_zero_iff] at h
      exact ⟨(byteLen_eq_zero_iff a).mp h.1, (byteLen_eq_zero_iff b).mp h.2⟩
    simp [hab]
  · rw [if_neg h]
    have hm : 0 < M := Nat.pos_of_ne_zero h
    have hmQ : (0 : ℚ) < (M : ℚ) := by exact_mod_cast hm
    have hd : classicLev a b ≤ M := by
      rw [hM]
      exact le_trans (classicLev_le_max a b)
        (max_le_max (length_le_byteLen a) (length_le_byteLen b))
    have hdQ : (classicLev a b : ℚ) ≤ (M : ℚ) := by exact_mod_cast hd
    refine ⟨?_, ?_, ?_⟩
    · have : (classicLev a b : ℚ) / (M : ℚ) ≤ 1 := (div_le_one hmQ).mpr hdQ
      linarith
    · have : (0 : ℚ) ≤ (classicLev a b : ℚ) / (M : ℚ) :=
        div_nonneg (by positivity) (le_of_lt hmQ)
      linarith
    · rw [sub_eq_self, div_eq_zero_iff]
      constructor
      · intro hc
        rcases hc with hc | hc
        · exact Or.inl ((classicLev_eq_zero_iff a b).mp (by exact_mod_cast hc))
        · exact absurd hc (by positivity)
      · intro hc
        have hab : a = b := by
          rcases hc with hc | ⟨rfl, rfl⟩
          · exact hc
          · rfl
        exact Or.inl (by exact_mod_cast (classicLev_eq_zero_iff a b).mpr hab)

/-! ## Properties of one step of the divide-and-conquer recursion -/

theorem recStep_refine_eq {text query : List Char} {s e : Nat} {pd : ℕ∞}
    {s' e' : Nat} {pd' : ℕ∞}
    (h : recStep text query s e pd = some (.refine s' e' pd')) :
    s' = s ∧ e' = e ∧ pd' = pd := by
  unfold recStep at h
  split at h
  · simp only [Option.some.injEq, RecOutcome.refine.injEq] at h
    exact ⟨h.1.symm, h.2.1.symm, h.2.2.symm⟩
  · dsimp only at h
    split at h
    · split at h
      · simp only [Option.some.injEq, RecOutcome.refine.injEq] at h
        exact ⟨h.1.symm, h.2.1.symm, h.2.2.symm⟩
      · split at h <;> simp at h
    · simp at h

theorem recStep_recurse_spec {text query : List Char} {s e : Nat} {pd : ℕ∞}
    {s' e' : Nat} {pd' : ℕ∞}
    (h : recStep text query s e pd = some (.recurse s' e' pd')) :
    pd' < pd ∧ s ≤ s' ∧ e' ≤ e ∧ (s ≤ e → s' ≤ e') ∧
      ∃ w, safe_substring text s' e' = some w ∧
        pd' = (levenshtein_distance w query : ℕ∞) := by
  unfold recStep at h
  split at h
  · simp at h
  · rename_i hbig
    dsimp only at h
    split at h
    · rename_i lt rt hlt_eq hrt_eq
      set mid := s + (e - s) / 2 with hmid
      set qB := byteLen query with hqB
      set ld : ℕ∞ := (levenshtein_distance lt query : ℕ∞) with hld
      set rd : ℕ∞ := (levenshtein_distance rt query : ℕ∞) with hrd
      split at h
      · simp at h
      · rename_i hne
        have hbest_lt : min ld (min pd rd) < pd :=
          lt_of_le_of_ne (le_trans (min_le_right _ _) (min_le_left _ _))
            (fun hcon => hne hcon.symm)
        split at h
        · rename_i hlr
          simp only [Option.some.injEq, RecOutcome.recurse.injEq] at h
          obtain ⟨rfl, rfl, rfl⟩ := h
          have hbest : min ld (min pd rd) = ld := by
            have h1 : min ld (min pd rd) = min (min ld pd) rd := (min_assoc _ _ _).symm
            have h2 : min ld pd ≤ ld := min_le_left _ _
            have h3 : min (min ld pd) rd = min ld pd :=
              min_eq_left (le_of_lt (lt_of_le_of_lt h2 hlr))
            rcases le_total pd ld with hc | hc
            · exfalso
              have : min ld (min pd rd) = pd := by
                rw [h1, h3, min_eq_right hc]
              exact absurd this.symm hne
            · rw [h1, h3, min_eq_left hc]
          refine ⟨hbest_lt, le_refl s, min_le_left e _, fun hse => ?_, lt, hlt_eq, ?_⟩
          · exact le_min hse (by omega)
          · rw [hbest, hld]
        · rename_i hlr
          simp only [Option.some.injEq, RecOutcome.recurse.injEq] at h
          obtain ⟨rfl, rfl, rfl⟩ := h
          have hrl : rd ≤ ld := le_of_not_lt hlr
          have hbest : min ld (min pd rd) = rd := by
            have h1 : min ld (min pd rd) = min (min ld rd) pd := by
              rw [min_assoc, min_comm pd rd, ← min_assoc, min_assoc]
            have h2 : min ld rd = rd := min_eq_right hrl
            rcases le_total pd rd with hc | hc
            · exfalso
              have : min ld (min pd rd) = pd := by
                rw [h1, h2, min_eq_right hc]
              exact absurd this.symm hne
            · rw [h1, h2, min_eq_left hc]
          refine ⟨hbest_lt, le_max_left s _, le_refl e, fun hse => ?_, rt, hrt_eq, ?_⟩
          · exact max_le hse (by omega)
          · rw [hbest, hrd]
    · simp at h

/-! ## Claim theorems: locator -/

/-- C8: every recursive invocation of `recursive_fuzzy_index_of` receives a
`parent_distance` bound less than or equal to (in fact strictly below) the
bound of the call that made it. -/
theorem recursive_call_bound_monotone (text query : List Char) (s e : Nat)
    (pd : ℕ∞) (s' e' : Nat) (pd' : ℕ∞)
    (h : recStep text query s e pd = some (.recurse s' e' pd')) :
    pd' ≤ pd :=
  le_of_lt (recStep_recurse_spec h).1

/-- Witness for C8 at a concrete input: the root call of scenario 2 makes a
recursive call with bound 9 below the initial infinite bound. -/
theorem recursive_call_bound_monotone_witness :
    recStep "The quick brown fox".toList "quick".toList 0 19 ⊤ =
      some (.recurse 0 14 (9 : ℕ∞)) ∧ (9 : ℕ∞) ≤ ⊤ :=
  ⟨by decide,
   recursive_call_bound_monotone "The quick brown fox".toList "quick".toList
     0 19 ⊤ 0 14 (9 : ℕ∞) (by decide)⟩

/-- C1 counterexample: `"quick"` occurs verbatim in the text `"quick"`
(indeed text = query), yet `locate` returns the window `"uick"` with
distance 1, not a distance-0 match equal to the query.  (The refiner starts
from an infinite parent bound, so it accepts the first left-shrink
unconditionally and then hill-climbs from there.) -/
theorem locate_verbatim_counterexample :
    recursive_fuzzy_index_of_with_defaults "quick".toList "quick".toList =
      some ⟨1, 5, "uick".toList, (1 : ℕ∞)⟩ ∧
    List.IsInfix "quick".toList "quick".toList ∧
    "quick".toList ≠ [] ∧
    "uick".toList ≠ "quick".toList ∧ (1 : ℕ∞) ≠ 0 :=
  ⟨locateF_sound 50 (by decide), by decide, by decide, by decide, by decide⟩

/-- C1 (amended): the verbatim-occurrence property does not hold for every
text and query (see the counterexample); it does hold for the spec's concrete
scenario 2: `locate("The quick brown fox", "quick")` finds `"quick"` at
scalar window `[4, 9)` with distance 0. -/
theorem locate_scenario2 :
    recursive_fuzzy_index_of_with_defaults
        "The quick brown fox".toList "quick".toList =
      some ⟨4, 9, "quick".toList, (0 : ℕ∞)⟩ :=
  locateF_sound 50 (by decide)

/-- C2: the core is *not* total over Unicode strings.  On the repository's
own regression-test input (`test_utf8_multibyte_characters`, which asserts
"This should not panic even with multi-byte UTF-8 characters"), the locator
byte-slices at offset 19, inside the 3-byte scalar `'→'`, and panics —
modelled as `none`. -/
theorem locate_panics_on_own_test_input :
    recursive_fuzzy_index_of_with_defaults
      "Hello 👋 world → test 🎉 fuzzy".toList "fuzzy".toList = none :=
  locateF_sound 50 (by decide)

/-- C3 counterexample: `locate("", "")` returns `start = 1 > 0 = end`,
violating the claimed `start ≤ end` invariant. -/
theorem locate_start_le_end_counterexample :
    recursive_fuzzy_index_of_with_defaults "".toList "".toList =
      some ⟨1, 0, [], (0 : ℕ∞)⟩ ∧ ¬ ((1 : Nat) ≤ 0) :=
  ⟨locateF_sound 50 (by decide), by decide⟩

/-! ## Invariants of the refiner and the locator -/

theorem improveStart_inv {text query : List Char} {bestEnd : Nat} :
    ∀ (bs : Nat) (d : ℕ∞) {bs' : Nat} {d' : ℕ∞},
      improveStart text query bestEnd bs d = some (bs', d') →
      (d = ⊤ ∨ ∃ w, safe_substring text bs bestEnd = some w ∧
          d = (levenshtein_distance w query : ℕ∞)) →
      ((∃ w', safe_substring text bs' bestEnd = some w' ∧
          d' = (levenshtein_distance w' query : ℕ∞)) ∧ d' ≤ d) := by
  intro bs d
  induction bs, d using improveStart.induct text query bestEnd with
  | case1 bs d hnone =>
      intro bs' d' h hinv
      rw [improveStart] at h
      simp only [hnone] at h
      exact Option.noConfusion h
  | case2 bs d nextText hsome nxt hlt =>
      rename_i ih
      intro bs' d' h hinv
      rw [improveStart] at h
      simp only [hsome] at h
      rw [dif_pos hlt] at h
      obtain ⟨hw, hle⟩ := ih h (Or.inr ⟨nextText, hsome, rfl⟩)
      exact ⟨hw, le_trans hle (le_of_lt hlt)⟩
  | case3 bs d nextText hsome nxt =>
      rename_i hnlt
      intro bs' d' h hinv
      rw [improveStart] at h
      simp only [hsome] at h
      rw [dif_neg hnlt] at h
      obtain ⟨rfl, rfl⟩ := Prod.mk.inj (Option.some.inj h)
      rcases hinv with htop | hw
      · exact absurd (htop ▸ WithTop.coe_lt_top (levenshtein_distance nextText query)) hnlt
      · exact ⟨hw, le_refl _⟩

theorem improveEnd_inv {text query : List Char} {bestStart : Nat} :
    ∀ (be : Nat) (d : ℕ∞) {be' : Nat} {d' : ℕ∞},
      improveEnd text query bestStart be d = some (be', d') →
      (d = ⊤ ∨ ∃ w, safe_substring text bestStart be = some w ∧
          d = (levenshtein_distance w query : ℕ∞)) →
      ((∃ w', safe_substring text bestStart be' = some w' ∧
          d' = (levenshtein_distance w' query : ℕ∞)) ∧ d' ≤ d ∧ be' ≤ be) := by
  intro be d
  induction be, d using improveEnd.induct text query bestStart with
  | case1 be d hnone =>
      intro be' d' h hinv
      rw [improveEnd] at h
      simp only [hnone] at h
      exact Option.noConfusion h
  | case2 be d nextText hsome nxt hlt =>
      rename_i ih
      intro be' d' h hinv
      rw [improveEnd] at h
      simp only [hsome] at h
      rw [dif_pos hlt] at h
      obtain ⟨hw, hle, hbe⟩ := ih h (Or.inr ⟨nextText, hsome, rfl⟩)
      exact ⟨hw, le_trans hle (le_of_lt hlt), le_trans hbe (Nat.sub_le be 1)⟩
  | case3 be d nextText hsome nxt =>
      rename_i hnlt
      intro be' d' h hinv
      rw [improveEnd] at h
      simp only [hsome] at h
      rw [dif_neg hnlt] at h
      obtain ⟨rfl, rfl⟩ := Prod.mk.inj (Option.some.inj h)
      rcases hinv with htop | hw
      · exact absurd (htop ▸ WithTop.coe_lt_top (levenshtein_distance nextText query)) hnlt
      · exact ⟨hw, le_refl _, le_refl _⟩

theorem iterative_reduction_inv {text query : List Char} {s e : Nat}
    {pd : ℕ∞} {r : FuzzySearchResult}
    (h : iterative_reduction text query s e pd = some r)
    (hinv : pd = ⊤ ∨ ∃ w, safe_substring text s e = some w ∧
        pd = (levenshtein_distance w query : ℕ∞)) :
    r.distance = (levenshtein_distance r.value query : ℕ∞) ∧
      r.distance ≤ pd ∧ r.stop ≤ e := by
  unfold iterative_reduction at h
  cases hs : improveStart text query e s pd with
  | none => rw [hs, Option.none_bind] at h; exact Option.noConfusion h
  | some p =>
      obtain ⟨bs, d₁⟩ := p
      rw [hs, Option.some_bind] at h
      obtain ⟨⟨w₁, hw₁, hd₁⟩, hle₁⟩ := improveStart_inv s pd hs hinv
      cases he : improveEnd text query bs e d₁ with
      | none => rw [he, Option.none_bind] at h; exact Option.noConfusion h
      | some q =>
          obtain ⟨be, d₂⟩ := q
          rw [he, Option.some_bind] at h
          obtain ⟨⟨w₂, hw₂, hd₂⟩, hle₂, hbe⟩ :=
            improveEnd_inv e d₁ he (Or.inr ⟨w₁, hw₁, hd₁⟩)
          cases hv : safe_substring text bs be with
          | none => rw [hv, Option.map_none'] at h; exact Option.noConfusion h
          | some v =>
              rw [hv, Option.map_some'] at h
              obtain rfl := Option.some.inj h
              have hvw : v = w₂ := Option.some.inj (hv ▸ hw₂)
              subst hvw
              exact ⟨hd₂, le_trans hle₂ hle₁, hbe⟩

theorem recursive_fuzzy_index_of_eq (text query : List Char) (s e : Nat) (pd : ℕ∞) :
    recursive_fuzzy_index_of text query s e pd =
      match recStep text query s e pd with
      | none => none
      | some (.refine s' e' d') => iterative_reduction text query s' e' d'
      | some (.recurse s' e' d') => recursive_fuzzy_index_of text query s' e' d' := by
  rw [recursive_fuzzy_index_of]
  cases hstep : recStep text query s e pd with
  | none => rfl
  | some o => cases o <;> rfl

theorem recursive_fuzzy_index_of_inv {text query : List Char} :
    ∀ (s e : Nat) (pd : ℕ∞) {r : FuzzySearchResult},
      recursive_fuzzy_index_of text query s e pd = some r →
      (pd = ⊤ ∨ ∃ w, safe_substring text s e = some w ∧
          pd = (levenshtein_distance w query : ℕ∞)) →
      s ≤ e → e ≤ byteLen text →
      r.distance = (levenshtein_distance r.value query : ℕ∞) ∧
        r.distance ≤ pd ∧ r.stop ≤ byteLen text := by
  intro s e pd
  induction s, e, pd using recursive_fuzzy_index_of.induct text query with
  | case1 s e pd hnone =>
      intro r h hinv hse hel
      rw [recursive_fuzzy_index_of_eq] at h
      simp only [hnone] at h
      exact Option.noConfusion h
  | case2 s e pd s' e' d' hstep =>
      intro r h hinv hse hel
      rw [recursive_fuzzy_index_of_eq] at h
      simp only [hstep] at h
      obtain ⟨rfl, rfl, rfl⟩ := recStep_refine_eq hstep
      obtain ⟨h1, h2, h3⟩ := iterative_reduction_inv h hinv
      exact ⟨h1, h2, le_trans h3 hel⟩
  | case3 s e pd s' e' d' hstep =>
      rename_i ih
      intro r h hinv hse hel
      rw [recursive_fuzzy_index_of_eq] at h
      simp only [hstep] at h
      obtain ⟨hlt, hss, hee, hsel, w, hw, hpd'⟩ := recStep_recurse_spec hstep
      obtain ⟨h1, h2, h3⟩ := ih h (Or.inr ⟨w, hw, hpd'⟩) (hsel hse) (le_trans hee hel)
      exact ⟨h1, le_trans h2 (le_of_lt hlt), h3⟩

/-- C10: whenever the locator returns a result, the reported `distance` field
equals the Levenshtein distance between the reported matched substring
(`value`) and the query — the two output fields are always consistent. -/
theorem locate_distance_matches_value (text query : List Char)
    (r : FuzzySearchResult)
    (h : recursive_fuzzy_index_of_with_defaults text query = some r) :
    r.distance = (levenshtein_distance r.value query : ℕ∞) :=
  (recursive_fuzzy_index_of_inv 0 (byteLen text) ⊤ h (Or.inl rfl)
    (Nat.zero_le _) (le_refl _)).1

/-- Witness for C10 at a concrete input. -/
theorem locate_distance_matches_value_witness :
    recursive_fuzzy_index_of_with_defaults "ab".toList "b".toList =
      some ⟨1, 2, "b".toList, (0 : ℕ∞)⟩ ∧
    (FuzzySearchResult.mk 1 2 "b".toList (0 : ℕ∞)).distance =
      (levenshtein_distance (FuzzySearchResult.mk 1 2 "b".toList (0 : ℕ∞)).value
        "b".toList : ℕ∞) :=
  ⟨locateF_sound 50 (by decide),
   locate_distance_matches_value "ab".toList "b".toList ⟨1, 2, "b".toList, (0 : ℕ∞)⟩
     (locateF_sound 50 (by decide))⟩

/-- C3 (amended): for every text and query on which `locate` returns, the
result satisfies `end ≤ text.len()` (the byte length, as the code measures
it) and `distance ≥ 0`; the claimed `start ≤ end` does **not** hold in
general (see the counterexample at `("", "")`). -/
theorem locate_result_invariants (text query : List Char)
    (r : FuzzySearchResult)
    (h : recursive_fuzzy_index_of_with_defaults text query = some r) :
    r.stop ≤ byteLen text ∧ 0 ≤ r.distance :=
  ⟨(recursive_fuzzy_index_of_inv 0 (byteLen text) ⊤ h (Or.inl rfl)
      (Nat.zero_le _) (le_refl _)).2.2,
   zero_le _⟩

/-- Witness for the amended C3 at a concrete input. -/
theorem locate_result_invariants_witness :
    recursive_fuzzy_index_of_with_defaults "abc".toList "b".toList =
      some ⟨1, 2, "b".toList, (0 : ℕ∞)⟩ ∧
    (2 ≤ byteLen "abc".toList ∧ (0 : ℕ∞) ≤ 0) :=
  ⟨locateF_sound 50 (by decide),
   locate_result_invariants "abc".toList "b".toList ⟨1, 2, "b".toList, (0 : ℕ∞)⟩
     (locateF_sound 50 (by decide))⟩

/-! ## Byte-slice splitting -/

theorem dropBytes_add :
    ∀ (l : List Char) (i j : Nat) {t : List Char},
      dropBytes l i = some t → dropBytes l (i + j) = dropBytes t j := by
  intro l
  induction l with
  | nil =>
      intro i j t h
      cases i with
      | zero =>
          obtain rfl := Option.some.inj h
          rw [Nat.zero_add]
      | succ i' => exact absurd h (by simp [dropBytes])
  | cons c l' ih =>
      intro i j t h
      cases i with
      | zero =>
          obtain rfl := Option.some.inj h
          rw [Nat.zero_add]
      | succ i' =>
          rw [dropBytes] at h
          split at h
          · rename_i hcb
            have h1 : i' + 1 + j = (i' + j) + 1 := by omega
            rw [h1, dropBytes, if_pos (by omega : charBytes c ≤ i' + j + 1)]
            have h2 : i' + j + 1 - charBytes c = (i' + 1 - charBytes c) + j := by omega
            rw [h2]
            exact ih (i' + 1 - charBytes c) j h
          · exact absurd h (by simp)

theorem takeBytes_split :
    ∀ (l : List Char) (i j : Nat) {w u t v : List Char},
      takeBytes l (i + j) = some w → takeBytes l i = some u →
      dropBytes l i = some t → takeBytes t j = some v → w = u ++ v := by
  intro l
  induction l with
  | nil =>
      intro i j w u t v hw hu ht hv
      cases i with
      | zero =>
          obtain rfl := Option.some.inj hu
          obtain rfl := Option.some.inj ht
          rw [Nat.zero_add] at hw
          rw [hw] at hv
          obtain rfl := Option.some.inj hv
          simp
      | succ i' => exact absurd hu (by simp [takeBytes])
  | cons c l' ih =>
      intro i j w u t v hw hu ht hv
      cases i with
      | zero =>
          obtain rfl := Option.some.inj hu
          obtain rfl := Option.some.inj ht
          rw [Nat.zero_add] at hw
          rw [hw] at hv
          obtain rfl := Option.some.inj hv
          simp
      | succ i' =>
          rw [takeBytes] at hu
          rw [dropBytes] at ht
          split at hu
          · rename_i hcb
            obtain ⟨u', hu', rfl⟩ := Option.map_eq_some'.mp hu
            rw [if_pos hcb] at ht
            have h1 : i' + 1 + j = (i' + j) + 1 := by omega
            rw [h1, takeBytes, if_pos (by omega : charBytes c ≤ i' + j + 1)] at hw
            obtain ⟨w', hw', rfl⟩ := Option.map_eq_some'.mp hw
            have h2 : i' + j + 1 - charBytes c = (i' + 1 - charBytes c) + j := by omega
            rw [h2] at hw'
            rw [List.cons_append]
            exact congrArg (c :: ·) (ih (i' + 1 - charBytes c) j hw' hu' ht hv)
          · exact absurd hu (by simp)

theorem safe_substring_refl (text : List Char) (s : Nat) :
    safe_substring text s s = some [] := by
  unfold safe_substring
  rw [if_neg (lt_irrefl s)]
  exact if_pos (le_refl _)

theorem safe_substring_of_le {text : List Char} {s e : Nat}
    (hse : s ≤ e) (hel : e ≤ byteLen text) :
    safe_substring text s e = if s = e then some [] else byteSlice text s e := by
  unfold safe_substring
  rw [if_neg (by omega : ¬ s > e)]
  dsimp only
  rw [Nat.min_eq_left (le_trans hse hel), Nat.min_eq_left hel]
  by_cases h : s = e
  · subst h
    rw [if_pos (le_refl s), if_pos rfl]
  · rw [if_neg (by omega : ¬ s ≥ e), if_neg h]

theorem safe_substring_split {text : List Char} {s m e : Nat}
    (h1 : s ≤ m) (h2 : m ≤ e) (hel : e ≤ byteLen text)
    {w u v : List Char}
    (hw : safe_substring text s e = some w)
    (hu : safe_substring text s m = some u)
    (hv : safe_substring text m e = some v) : w = u ++ v := by
  rw [safe_substring_of_le (le_trans h1 h2) hel] at hw
  rw [safe_substring_of_le h1 (le_trans h2 hel)] at hu
  rw [safe_substring_of_le h2 hel] at hv
  by_cases hsm : s = m
  · subst hsm
    rw [if_pos rfl] at hu
    obtain rfl := (Option.some.inj hu).symm
    rw [hv] at hw
    obtain rfl := Option.some.inj hw
    simp
  · by_cases hme : m = e
    · subst hme
      rw [if_pos rfl] at hv
      obtain rfl := (Option.some.inj hv).symm
      rw [if_neg hsm] at hw hu
      rw [hu] at hw
      obtain rfl := Option.some.inj hw
      simp
    · rw [if_neg (by omega : ¬ s = e)] at hw
      rw [if_neg hsm] at hu
      rw [if_neg hme] at hv
      unfold byteSlice at hw hu hv
      cases hd1 : dropBytes text s with
      | none => rw [hd1] at hw; exact absurd hw (by simp)
      | some t1 =>
          rw [hd1, Option.some_bind] at hw hu
          cases hd2 : dropBytes text m with
          | none => rw [hd2] at hv; exact absurd hv (by simp)
          | some t2 =>
              rw [hd2, Option.some_bind] at hv
              have hdm : dropBytes t1 (m - s) = some t2 := by
                have := dropBytes_add text s (m - s) hd1
                rw [show s + (m - s) = m by omega] at this
                rw [← this, hd2]
              have hes : e - s = (m - s) + (e - m) := by omega
              rw [hes] at hw
              exact takeBytes_split t1 (m - s) (e - m) hw hu hdm hv

theorem lev_nil_right (w : List Char) : levenshtein_distance w [] = w.length := by
  rw [lev_eq_classicLev]; exact classicLev_nil_right w

theorem recStep_refine_branch {text query : List Char} {s e : Nat} {pd : ℕ∞}
    {s' e' : Nat} {pd' : ℕ∞}
    (h : recStep text query s e pd = some (.refine s' e' pd')) :
    e - s ≤ 2 * byteLen query ∨
      ∃ lt rt,
        safe_substring text s (min e (s + (e - s) / 2 + byteLen query)) = some lt ∧
        safe_substring text (max s (s + (e - s) / 2 - byteLen query)) e = some rt ∧
        pd = min ((levenshtein_distance lt query : ℕ∞))
          (min pd ((levenshtein_distance rt query : ℕ∞))) := by
  unfold recStep at h
  split at h
  · rename_i hsmall
    exact Or.inl hsmall
  · dsimp only at h
    split at h
    · rename_i lt rt hlt_eq hrt_eq
      split at h
      · rename_i heqb
        exact Or.inr ⟨lt, rt, hlt_eq, hrt_eq, heqb⟩
      · split at h <;> exact absurd h (by simp)
    · exact absurd h (by simp)

theorem rec_empty_query_inv {text : List Char} :
    ∀ (s e : Nat) (pd : ℕ∞) {r : FuzzySearchResult},
      recursive_fuzzy_index_of text [] s e pd = some r →
      ((pd = ⊤ ∧ s = 0 ∧ e = byteLen text) ∨
        (∃ w, safe_substring text s e = some w ∧
          pd = (levenshtein_distance w [] : ℕ∞))) →
      s ≤ e → e ≤ byteLen text →
      r.value = [] ∧ r.distance = 0 := by
  intro s e pd
  induction s, e, pd using recursive_fuzzy_index_of.induct text [] with
  | case1 s e pd hnone =>
      intro r h hinv hse hel
      rw [recursive_fuzzy_index_of_eq] at h
      simp only [hnone] at h
      exact Option.noConfusion h
  | case2 s e pd s' e' d' hstep =>
      intro r h hinv hse hel
      rw [recursive_fuzzy_index_of_eq] at h
      simp only [hstep] at h
      obtain ⟨rfl, rfl, rfl⟩ := recStep_refine_eq hstep
      have hq0 : byteLen ([] : List Char) = 0 := rfl
      rcases recStep_refine_branch hstep with hsmall | ⟨lt, rt, hlt_eq, hrt_eq, hpdmin⟩
      · -- the small-range hand-off: with an empty query the range is empty
        rw [hq0, Nat.mul_zero] at hsmall
        have hes : e' = s' := le_antisymm (by omega) hse
        subst hes
        rcases hinv with ⟨htop, hs0, hebl⟩ | ⟨w, hw, hpd⟩
        · subst htop
          subst hs0
          have htext : text = [] := (byteLen_eq_zero_iff text).mp hebl.symm
          subst htext
          have heval : iterative_reduction ([] : List Char) [] 0 0 ⊤ =
              some ⟨1, 0, [], 0⟩ :=
            iterative_reductionF_sound
              (show iterative_reductionF 5 [] [] 0 0 ⊤ = .out (some ⟨1, 0, [], 0⟩)
                by decide)
          rw [heval] at h
          obtain rfl := Option.some.inj h
          exact ⟨rfl, rfl⟩
        · rw [safe_substring_refl] at hw
          obtain rfl := (Option.some.inj hw).symm
          have hpd0 : d' = 0 := by rw [hpd]; rfl
          obtain ⟨hd_eq, hd_le, -⟩ :=
            iterative_reduction_inv h (Or.inr ⟨[], safe_substring_refl text _, hpd⟩)
          have hdz : r.distance = 0 := le_antisymm (hpd0 ▸ hd_le) (zero_le _)
          have hlen : r.value.length = 0 := by
            have : ((levenshtein_distance r.value [] : ℕ∞)) = 0 := hd_eq ▸ hdz
            have := WithTop.coe_eq_zero.mp this
            rwa [lev_nil_right] at this
          exact ⟨List.length_eq_zero.mp hlen, hdz⟩
      · -- the "no improvement" hand-off: pd bounds both half-windows
        set mid := s' + (e' - s') / 2 with hmid
        have hmidle : mid ≤ e' := by omega
        have hmidge : s' ≤ mid := by omega
        rw [hq0, Nat.add_zero, Nat.min_eq_right hmidle] at hlt_eq
        rw [hq0, Nat.sub_zero, Nat.max_eq_right hmidge] at hrt_eq
        rcases hinv with ⟨htop, -, -⟩ | ⟨w, hw, hpd⟩
        · exfalso
          rw [htop] at hpdmin
          have hle : min ((levenshtein_distance lt [] : ℕ∞))
              (min ⊤ ((levenshtein_distance rt [] : ℕ∞))) ≤
              ((levenshtein_distance lt [] : ℕ∞)) := min_le_left _ _
          rw [← hpdmin] at hle
          exact absurd (lt_of_le_of_lt hle (WithTop.coe_lt_top _)) (lt_irrefl ⊤)
        · have hsplit : w = lt ++ rt :=
            safe_substring_split hmidge hmidle hel hw hlt_eq hrt_eq
          have hpd_le_lt : d' ≤ ((levenshtein_distance lt [] : ℕ∞)) := by
            rw [hpdmin]; exact min_le_left _ _
          have hpd_le_rt : d' ≤ ((levenshtein_distance rt [] : ℕ∞)) := by
            rw [hpdmin]
            exact le_trans (min_le_right _ _) (min_le_right _ _)
          rw [hpd, lev_nil_right, hsplit, List.length_append] at hpd_le_lt hpd_le_rt
          rw [lev_nil_right] at hpd_le_lt
          rw [lev_nil_right] at hpd_le_rt
          have hlt0 : lt.length + rt.length ≤ lt.length := WithTop.coe_le_coe.mp hpd_le_lt
          have hrt0 : lt.length + rt.length ≤ rt.length := WithTop.coe_le_coe.mp hpd_le_rt
          have hw0 : w.length = 0 := by rw [hsplit, List.length_append]; omega
          have hpd0 : d' = 0 := by
            rw [hpd, lev_nil_right, hw0]; rfl
          obtain ⟨hd_eq, hd_le, -⟩ := iterative_reduction_inv h (Or.inr ⟨w, hw, hpd⟩)
          have hdz : r.distance = 0 := le_antisymm (hpd0 ▸ hd_le) (zero_le _)
          have hlen : r.value.length = 0 := by
            have : ((levenshtein_distance r.value [] : ℕ∞)) = 0 := hd_eq ▸ hdz
            have := WithTop.coe_eq_zero.mp this
            rwa [lev_nil_right] at this
          exact ⟨List.length_eq_zero.mp hlen, hdz⟩
  | case3 s e pd s' e' d' hstep =>
      rename_i ih
      intro r h hinv hse hel
      rw [recursive_fuzzy_index_of_eq] at h
      simp only [hstep] at h
      obtain ⟨hlt, hss, hee, hsel, w, hw, hpd'⟩ := recStep_recurse_spec hstep
      exact ih h (Or.inr ⟨w, hw, hpd'⟩) (hsel hse) (le_trans hee hel)

/-- C4 counterexample: `locate("ab", "")` returns the empty match at
`start = end = 1`, not at the start of the search range (0). -/
theorem locate_empty_query_counterexample :
    recursive_fuzzy_index_of_with_defaults "ab".toList [] =
      some ⟨1, 1, [], (0 : ℕ∞)⟩ ∧ (1 : Nat) ≠ 0 :=
  ⟨locateF_sound 50 (by decide), by decide⟩

/-- C4 (amended): for every text on which `locate(text, "")` returns, the
result is a well-defined **empty** match with distance 0 (`matched_text`
empty), but its position is not in general the start of the search range:
for `"ab"` it sits at `start = end = 1`, and for `""` even `start = 1 > 0 =
end`. -/
theorem locate_empty_query_empty_match (text : List Char)
    (r : FuzzySearchResult)
    (h : recursive_fuzzy_index_of_with_defaults text [] = some r) :
    r.value = [] ∧ r.distance = 0 :=
  rec_empty_query_inv 0 (byteLen text) ⊤ h (Or.inl ⟨rfl, rfl, rfl⟩)
    (Nat.zero_le _) (le_refl _)

/-- Witness for the amended C4 at a concrete input. -/
theorem locate_empty_query_empty_match_witness :
    recursive_fuzzy_index_of_with_defaults "xy".toList [] =
      some ⟨1, 1, [], (0 : ℕ∞)⟩ ∧
    ((FuzzySearchResult.mk 1 1 [] (0 : ℕ∞)).value = [] ∧
      (FuzzySearchResult.mk 1 1 [] (0 : ℕ∞)).distance = 0) :=
  ⟨locateF_sound 50 (by decide),
   locate_empty_query_empty_match "xy".toList ⟨1, 1, [], (0 : ℕ∞)⟩
     (locateF_sound 50 (by decide))⟩
